import Mathlib

/-!
Verification of the Result/Option error-handling algebra of this repository.

The data model is a shallow embedding of the TypeScript sources:

* `Result` — the `SucceededResult | FailedResult` tagged union.
* `SomeOption` / `NoneOption` / `TsOption` — the `SomeOption | NoneOption`
  tagged union (named `TsOption` because `Option` is taken by Lean core).
* `validateIndex` — translated from `packages/depot/src/primitives.mts`.
* The `Option` namespace combinators — translated from the option module.

Asynchronous combinators (`PromiseResult.*`) operate on already-started
promises.  A promise that always resolves with a `Result` is modelled as a
`TimedPromise`: its latency in milliseconds together with the `Result` it
settles with.  A promise that may reject is modelled as a `SettledPromise`:
either resolved with a value or rejected with a reason.  The single-threaded
JS timer model orders settlements by ascending latency, ties broken by
registration (index) order.
-/

/-- The `Result<TSuccess, TError>` tagged union: `SucceededResult` holds a
`value`, `FailedResult` holds an `error`.  Modelled from the spec: the
`result.mts` module itself is not among the available sources (only its unit
tests are), and the spec fixes the data model: exactly one variant,
immutable, structural equality. -/
inductive Result (σ ε : Type) where
  | succeededResult (value : σ)
  | failedResult (error : ε)
deriving DecidableEq, Repr

/-- The `succeeded` flag: true exactly on `SucceededResult`. -/
def Result.succeeded : Result σ ε → Bool
  | .succeededResult _ => true
  | .failedResult _ => false

/-- The `failed` flag: true exactly on `FailedResult`. -/
def Result.failed : Result σ ε → Bool
  | .succeededResult _ => false
  | .failedResult _ => true

/-- The `value` accessor (`TSuccess | undefined`): the success payload on
`SucceededResult`, `undefined` (modelled as `none`) on `FailedResult`. -/
def Result.value : Result σ ε → Option σ
  | .succeededResult v => some v
  | .failedResult _ => none

/-- The `error` accessor (`TError | undefined`): the failure payload on
`FailedResult`, `undefined` (modelled as `none`) on `SucceededResult`. -/
def Result.error : Result σ ε → Option ε
  | .succeededResult _ => none
  | .failedResult e => some e

/-- `SomeOption<T>`: an optional value that is set; its `value` getter
returns the stored payload.  Translated from the option module. -/
structure SomeOption (α : Type) where
  value : α
deriving DecidableEq, Repr

/-- `NoneOption`: an optional value that is not set.  The class has no
instance data at all (its getters return constants), which the embedding
renders as a structure with no fields — so the type has exactly one value,
mirroring the private-constructor singleton of the source. -/
structure NoneOption where
deriving DecidableEq, Repr

/-- `NoneOption.get()`: returns the one-and-only instance. -/
def NoneOption.get : NoneOption := {}

/-- `NoneOption`'s `isSome` getter: always `false`. -/
def NoneOption.isSome (_o : NoneOption) : Bool := false

/-- `NoneOption`'s `isNone` getter: always `true`. -/
def NoneOption.isNone (_o : NoneOption) : Bool := true

/-- `NoneOption`'s `value` getter: always `undefined`.  The payload type is
`Empty` so that no payload can even be expressed, matching
`IOption<undefined>`. -/
def NoneOption.value (_o : NoneOption) : Option Empty := none

/-- `Option<T> = SomeOption<T> | NoneOption`, named `TsOption` because
`Option` is taken by Lean core. -/
inductive TsOption (α : Type) where
  | someOpt (o : SomeOption α)
  | noneOpt (o : NoneOption)
deriving DecidableEq, Repr

/-- `isSome` on the union: true exactly on `SomeOption`. -/
def TsOption.isSome : TsOption α → Bool
  | .someOpt _ => true
  | .noneOpt _ => false

/-- `isNone` on the union: true exactly on `NoneOption`. -/
def TsOption.isNone : TsOption α → Bool
  | .someOpt _ => false
  | .noneOpt _ => true

/-- `value` on the union (`T | undefined`). -/
def TsOption.value : TsOption α → Option α
  | .someOpt o => some o.value
  | .noneOpt _ => none

/-- `Option.all(collection)`: finds the first element that is a `NoneOption`
(`collection.find((curOpt) => curOpt instanceof NoneOption)`); if found it is
returned, else a `SomeOption` wrapping `collection.map((curOpt) =>
curOpt.value!)`.  The non-null assertion `value!` is rendered as `filterMap
value`, which agrees with mapping `value!` whenever no element is none —
which is the only situation in which that branch is taken (`find?` with
predicate `isNone` can only return an element satisfying `isNone`, so the
wildcard some-branch below is unreachable for a found `someOpt`). -/
def TsOption.all (collection : List (TsOption α)) : TsOption (List α) :=
  match collection.find? TsOption.isNone with
  | Option.some (TsOption.noneOpt o) => TsOption.noneOpt o
  | _ => TsOption.someOpt ⟨collection.filterMap TsOption.value⟩

/-- `validateIndex(startIndex, itemsNeeded, container)` from
`packages/depot/src/primitives.mts`, with the container abstracted to its
`length` (the only member of `IHasLength` the function reads). -/
def validateIndex (startIndex itemsNeeded : Int) (containerLength : Nat) :
    Result Int String :=
  if startIndex < 0 then
    .failedResult s!"Invalid starting index {startIndex}."
  else if itemsNeeded < 0 then
    .failedResult s!"Invalid number of items needed: {itemsNeeded}"
  else if itemsNeeded ≤ 0 then
    .succeededResult startIndex
  else
    let containerSize : Int := containerLength
    let lastContainerIndex : Int := containerSize - 1
    let lastIndexNeeded : Int := startIndex + itemsNeeded - 1
    if lastIndexNeeded ≤ lastContainerIndex then
      .succeededResult startIndex
    else
      .failedResult
        s!"Invalid index {startIndex} when reading {itemsNeeded} items from container with length {containerSize}"

/-- The `{ index, item }` failure report produced by the concurrent array and
tuple combinators: `index` is the zero-based position of the failing element
in the original input collection, `item` its error payload. -/
structure IndexedFailure (ε : Type) where
  index : Nat
  item : ε
deriving DecidableEq, Repr

/-- Modelled from the spec: an already-started asynchronous operation that
always settles by resolving with a `Result` (the shape the `PromiseResult`
array/object combinators consume; `promiseResult.mts` is not among the
available sources).  `delay` is the operation's own latency; in the
single-threaded timer model, promises settle in ascending `delay` order,
ties broken by registration (list index) order. -/
structure TimedPromise (σ ε : Type) where
  delay : Nat
  result : Result σ ε
deriving DecidableEq, Repr

/-- Modelled from the spec: a raw promise observed at its settlement point —
either resolved with a value or rejected with a reason.  A combinator whose
output never rejects returns a `SettledPromise` that is provably always
`resolved`. -/
inductive SettledPromise (ρ α : Type) where
  | resolved (value : α)
  | rejected (reason : ρ)
deriving DecidableEq, Repr

/-- A JavaScript `unknown` value as far as `errorToString` can observe it:
either a string, or any other value, carrying its optional `message`
property and its `JSON.stringify` rendering.  Values with no `message`
property (numbers, null-message objects, …) are `jobj none json`. -/
inductive JsVal where
  | jstr (s : String)
  | jobj (message : Option JsVal) (json : String)

/-- `errorToString(err)`: if `err` is a string, return it; else if
`err.message` is truthy and a string, return the message (a string is truthy
exactly when non-empty); else return `JSON.stringify(err)`. -/
def errorToString (err : JsVal) : String :=
  match err with
  | .jstr s => s
  | .jobj message json =>
    match message with
    | some (.jstr m) => if m = "" then json else m
    | _ => json

/-- `Result.gate(fn, r)`.  Modelled from the spec: if `r` failed it is passed
through; if it succeeded, `fn(r.value)` is invoked; a failed `fn` result is
returned, a successful one causes the original `r` to be returned unchanged.
The second component counts how many times `fn` was invoked. -/
def Result.gate (fn : α → Result β ε) (r : Result α ε) : Result α ε × Nat :=
  match r with
  | .failedResult e => (.failedResult e, 0)
  | .succeededResult v =>
    match fn v with
    | .failedResult e => (.failedResult e, 1)
    | .succeededResult _ => (.succeededResult v, 1)

/-- `Result.mapWhileSuccessful(items, fn)`.  Modelled from the spec: maps
each item through `fn` in order, invoking `fn` for each item up to and
including the first failure; returns the first failure if any, else a
success wrapping the mapped values in order.  The second component counts
how many times `fn` was invoked. -/
def Result.mapWhileSuccessful (items : List α) (fn : α → Result β ε) :
    Result (List β) ε × Nat :=
  match items with
  | [] => (.succeededResult [], 0)
  | x :: xs =>
    match fn x with
    | .failedResult e => (.failedResult e, 1)
    | .succeededResult v =>
      match Result.mapWhileSuccessful xs fn with
      | (.succeededResult vs, n) => (.succeededResult (v :: vs), n + 1)
      | (.failedResult e, n) => (.failedResult e, n + 1)

/-- `PromiseResult.forceResult(pr)`.  Modelled from the spec: awaits a
`Promise<Result>` that might itself reject; a resolved `Result` is passed
through, a rejection reason is captured as a `FailedResult`.  The returned
promise is the combinator's own output, so "never rejects" is the statement
that it is always `resolved`. -/
def PromiseResult.forceResult (pr : SettledPromise ρ (Result σ ρ)) :
    SettledPromise ρ (Result σ ρ) :=
  match pr with
  | .resolved r => .resolved r
  | .rejected e => .resolved (.failedResult e)

/-- `PromiseResult.fromPromise(p)`.  Modelled from the spec: awaits `p`; on
resolution returns `SucceededResult(value)`; on rejection returns
`FailedResult(errorToString(reason))` (the conversion is the in-source
`errorToString`); never itself rejects. -/
def PromiseResult.fromPromise (p : SettledPromise JsVal α) :
    SettledPromise JsVal (Result α String) :=
  match p with
  | .resolved v => .resolved (.succeededResult v)
  | .rejected reason => .resolved (.failedResult (errorToString reason))

/-- `PromiseResult.gate(fn, input)`.  Modelled from the spec: same contract
as `Result.gate` lifted to the asynchronous layer — the input is awaited
(here: already settled) and the gate logic is applied to the settled
`Result`.  The second component counts how many times `fn` was invoked. -/
def PromiseResult.gate (fn : α → Result β ε) (input : Result α ε) :
    Result α ε × Nat :=
  match input with
  | .failedResult e => (.failedResult e, 0)
  | .succeededResult v =>
    match fn v with
    | .failedResult e => (.failedResult e, 1)
    | .succeededResult _ => (.succeededResult v, 1)

/-- Largest latency among a list of started promises (`0` when empty): the
time at which the last of them has settled. -/
def maxDelay (ps : List (TimedPromise σ ε)) : Nat :=
  ps.foldr (fun p a => Nat.max p.delay a) 0

/-- The `{index, item}` reports of the failing promises, in ascending index
order, indices counted from `k`. -/
def indexedFailuresFrom (k : Nat) :
    List (TimedPromise σ ε) → List (IndexedFailure ε)
  | [] => []
  | p :: ps =>
    match p.result with
    | .failedResult e => ⟨k, e⟩ :: indexedFailuresFrom (k + 1) ps
    | .succeededResult _ => indexedFailuresFrom (k + 1) ps

/-- The `{index, item}` reports of the failing promises, in ascending
zero-based index order. -/
def indexedFailures (ps : List (TimedPromise σ ε)) : List (IndexedFailure ε) :=
  indexedFailuresFrom 0 ps

/-- The success payloads of the promises, in original index order. -/
def successValues (ps : List (TimedPromise σ ε)) : List σ :=
  ps.filterMap (fun p => p.result.value)

/-- The failure settlement events `(delay, index, error)`, one per failing
promise, listed in index order with indices counted from `k`. -/
def failureEventsFrom (k : Nat) :
    List (TimedPromise σ ε) → List (Nat × Nat × ε)
  | [] => []
  | p :: ps =>
    match p.result with
    | .failedResult e => (p.delay, k, e) :: failureEventsFrom (k + 1) ps
    | .succeededResult _ => failureEventsFrom (k + 1) ps

/-- The failure settlement events `(delay, index, error)` in zero-based
index order. -/
def failureEvents (ps : List (TimedPromise σ ε)) : List (Nat × Nat × ε) :=
  failureEventsFrom 0 ps

/-- The earliest event of a list of settlement events given in registration
order: the one with the least delay, ties going to the earlier-registered
event (equal-delay JS timers fire in registration order). -/
def earliestEvent : List (Nat × Nat × ε) → Option (Nat × Nat × ε)
  | [] => none
  | x :: xs =>
    match earliestEvent xs with
    | none => some x
    | some y => if x.1 ≤ y.1 then some x else some y

/-- `PromiseResult.allArrayA(promises)`.  Modelled from the spec:
collect-all concurrent join.  Waits for every promise to settle (resolution
time is the largest latency; empty input resolves immediately).  If one or
more failed, resolves with a failure wrapping one `IndexedFailure` per
failing promise in ascending index order; else with a success wrapping the
values in original index order. -/
def PromiseResult.allArrayA (ps : List (TimedPromise σ ε)) :
    Nat × Result (List σ) (List (IndexedFailure ε)) :=
  (maxDelay ps,
   match indexedFailures ps with
   | [] => .succeededResult (successValues ps)
   | f :: fs => .failedResult (f :: fs))

/-- `PromiseResult.allArrayM(promises)`.  Modelled from the spec: first-only
early-exit concurrent join.  Resolves at the settlement of the earliest
failure — at that failure's own latency — with a single `IndexedFailure`;
if all succeed, resolves once every promise has completed with the values
in original index order. -/
def PromiseResult.allArrayM (ps : List (TimedPromise σ ε)) :
    Nat × Result (List σ) (IndexedFailure ε) :=
  match earliestEvent (failureEvents ps) with
  | some (d, i, e) => (d, .failedResult ⟨i, e⟩)
  | none => (maxDelay ps, .succeededResult (successValues ps))

/-- The success object of a named join: the entries' keys mapped to their
resolved values, in key (insertion) order. -/
def objSuccessValues (entries : List (String × TimedPromise σ ε)) :
    List (String × σ) :=
  entries.filterMap
    (fun kv => match kv.2.result.value with
      | some v => some (kv.1, v)
      | none => none)

/-- `PromiseResult.allObj(namedPromises)`.  Modelled from the spec: a
concurrent join over named, already-started promises (an object's own key
order is its insertion order, rendered as an association list).  Per the
spec's stated hypothesis — "first failure encountered while iterating
settled results" — a failing entry loses at its own settlement time and the
first failure to settle is returned as a bare error payload; if every entry
succeeds, resolves with an object of the same keys mapped to the resolved
values. -/
def PromiseResult.allObj (entries : List (String × TimedPromise σ ε)) :
    Nat × Result (List (String × σ)) ε :=
  match earliestEvent (failureEvents (entries.map Prod.snd)) with
  | some (d, _i, e) => (d, .failedResult e)
  | none =>
    (maxDelay (entries.map Prod.snd),
     .succeededResult (objSuccessValues entries))

/-- A `Result` is `succeeded` exactly when it is a `succeededResult`. -/
theorem Result.succeeded_iff (r : Result σ ε) :
    r.succeeded = true ↔ ∃ v, r = Result.succeededResult v := by
  cases r <;> simp [Result.succeeded]

/-- A `Result` is `failed` exactly when it is a `failedResult`. -/
theorem Result.failed_iff (r : Result σ ε) :
    r.failed = true ↔ ∃ e, r = Result.failedResult e := by
  cases r <;> simp [Result.failed]

/-- Claim C3: `PromiseResult.forceResult` never throws or rejects: its output
promise is always resolved; a promise that resolves with a `Result` (success
or failure) has that `Result` passed through unchanged, and a promise that
rejects with any reason yields a resolved `FailedResult` wrapping that
rejection reason. -/
theorem PromiseResult.forceResult_spec (pr : SettledPromise ρ (Result σ ρ)) :
    (∃ r, PromiseResult.forceResult pr = SettledPromise.resolved r) ∧
    (∀ r, pr = SettledPromise.resolved r →
      PromiseResult.forceResult pr = SettledPromise.resolved r) ∧
    (∀ e, pr = SettledPromise.rejected e →
      PromiseResult.forceResult pr =
        SettledPromise.resolved (Result.failedResult e)) := by
  refine ⟨?_, ?_, ?_⟩
  · cases pr with
    | resolved r => exact ⟨r, rfl⟩
    | rejected e => exact ⟨Result.failedResult e, rfl⟩
  · intro r h
    subst h
    rfl
  · intro e h
    subst h
    rfl

/-- Witness for C3 at a rejecting input: the rejection reason `"error 34"`
comes back as a resolved `FailedResult`. -/
theorem PromiseResult.forceResult_spec_witness :
    PromiseResult.forceResult (σ := Nat)
        (SettledPromise.rejected "error 34") =
      SettledPromise.resolved (Result.failedResult "error 34") :=
  (PromiseResult.forceResult_spec
    (SettledPromise.rejected "error 34")).2.2 "error 34" rfl

/-- When every item maps to a success, `mapWhileSuccessful` invokes `fn` once
per item and collects the mapped values in order. -/
theorem mapWhileSuccessful_all_succeed (fn : α → Result β ε)
    (items : List α) (h : ∀ x ∈ items, (fn x).succeeded = true) :
    ∃ vs, Result.mapWhileSuccessful items fn =
        (Result.succeededResult vs, items.length) ∧
      items.map fn = vs.map Result.succeededResult := by
  induction items with
  | nil => exact ⟨[], rfl, rfl⟩
  | cons a as ih =>
    obtain ⟨v, hv⟩ := (Result.succeeded_iff (fn a)).mp (h a (by simp))
    obtain ⟨vs, h1, h2⟩ := ih (fun x hx => h x (by simp [hx]))
    refine ⟨v :: vs, ?_, ?_⟩
    · simp [Result.mapWhileSuccessful, hv, h1]
    · simp [hv, h2]

/-- When the items start with successes followed by a first failing item,
`mapWhileSuccessful` stops there: `fn` is invoked once per preceding item
plus once for the failing item, and the failure is returned. -/
theorem mapWhileSuccessful_stops (fn : α → Result β ε) (pre : List α) :
    ∀ (x : α) (post : List α) (e : ε),
      (∀ y ∈ pre, (fn y).succeeded = true) → fn x = Result.failedResult e →
      Result.mapWhileSuccessful (pre ++ x :: post) fn =
        (Result.failedResult e, pre.length + 1) := by
  induction pre with
  | nil =>
    intro x post e _ hfx
    simp [Result.mapWhileSuccessful, hfx]
  | cons y pre ih =>
    intro x post e hpre hfx
    obtain ⟨v, hv⟩ := (Result.succeeded_iff (fn y)).mp (hpre y (by simp))
    have hrec := ih x post e (fun z hz => hpre z (by simp [hz])) hfx
    simp [Result.mapWhileSuccessful, hv, hrec]

/-- Claim C4: `Result.mapWhileSuccessful` maps the items in order, stopping
after the first failure: when the items split as successes `pre`, a first
failing item `x`, and a remainder, `fn` is invoked exactly `pre.length + 1`
times and that first failure is returned; when no item fails, `fn` is
invoked once per item and a success wrapping the mapped values in order is
returned. -/
theorem Result.mapWhileSuccessful_spec (items : List α)
    (fn : α → Result β ε) :
    ((∀ x ∈ items, (fn x).succeeded = true) →
      ∃ vs, Result.mapWhileSuccessful items fn =
          (Result.succeededResult vs, items.length) ∧
        items.map fn = vs.map Result.succeededResult) ∧
    (∀ (pre : List α) (x : α) (post : List α) (e : ε),
      items = pre ++ x :: post →
      (∀ y ∈ pre, (fn y).succeeded = true) →
      fn x = Result.failedResult e →
      Result.mapWhileSuccessful items fn =
        (Result.failedResult e, pre.length + 1)) := by
  refine ⟨mapWhileSuccessful_all_succeed fn items, ?_⟩
  intro pre x post e hitems hpre hfx
  subst hitems
  exact mapWhileSuccessful_stops fn pre x post e hpre hfx

/-- Witness for C4 at the repository's own example: over `[5,6,7,8,9]` with
the "square must be < 50" rule, the mapping function is invoked exactly 4
times and the failure for item 8 is returned. -/
theorem Result.mapWhileSuccessful_spec_witness :
    Result.mapWhileSuccessful [5, 6, 7, 8, 9]
        (fun n : Nat => if n * n < 50 then Result.succeededResult (n * n)
          else Result.failedResult "too big") =
      (Result.failedResult "too big", 4) :=
  (Result.mapWhileSuccessful_spec [5, 6, 7, 8, 9]
      (fun n : Nat => if n * n < 50 then Result.succeededResult (n * n)
        else Result.failedResult "too big")).2
    [5, 6, 7] 8 [9] "too big" rfl (by decide) (by decide)

/-- Claim C5: `gate(fn, r)` returns `r` unchanged without invoking `fn` when
`r` is failed; when `r` is succeeded it invokes `fn(r.value)` exactly once,
returning `fn`'s result when that result is a failure and the original `r`
(with its original success value) when `fn`'s result is a success — for both
the synchronous `Result.gate` and the asynchronous `PromiseResult.gate`. -/
theorem Result.gate_spec (fn : α → Result β ε) (r : Result α ε) :
    (r.failed = true →
      Result.gate fn r = (r, 0) ∧ PromiseResult.gate fn r = (r, 0)) ∧
    (∀ v, r = Result.succeededResult v →
      (∀ e, fn v = Result.failedResult e →
        Result.gate fn r = (Result.failedResult e, 1) ∧
        PromiseResult.gate fn r = (Result.failedResult e, 1)) ∧
      (∀ w, fn v = Result.succeededResult w →
        Result.gate fn r = (r, 1) ∧ PromiseResult.gate fn r = (r, 1))) := by
  constructor
  · intro h
    obtain ⟨e, he⟩ := (Result.failed_iff r).mp h
    subst he
    exact ⟨rfl, rfl⟩
  · intro v hv
    subst hv
    constructor
    · intro e he
      constructor <;> simp [Result.gate, PromiseResult.gate, he]
    · intro w hw
      constructor <;> simp [Result.gate, PromiseResult.gate, hw]

/-- Witness for C5: gating the success `2` through an even-check that
succeeds returns the original success `2` (not the gate function's value),
with exactly one invocation, in both the sync and async variants. -/
theorem Result.gate_spec_witness :
    Result.gate
        (fun n : Nat => if n % 2 = 0 then Result.succeededResult (n * 10)
          else Result.failedResult "odd")
        (Result.succeededResult 2) = (Result.succeededResult 2, 1) ∧
    PromiseResult.gate
        (fun n : Nat => if n % 2 = 0 then Result.succeededResult (n * 10)
          else Result.failedResult "odd")
        (Result.succeededResult 2) = (Result.succeededResult 2, 1) :=
  ((Result.gate_spec
      (fun n : Nat => if n % 2 = 0 then Result.succeededResult (n * 10)
        else Result.failedResult "odd")
      (Result.succeededResult 2)).2 2 rfl).2 20 (by decide)

/-- Counterexample for C6 as stated: the rejection reason
`\x7b message: "" \x7d` does have a string `message` property, yet the code
returns the JSON stringification of the reason (the `message` guard in
`errorToString` requires a truthy — i.e. non-empty — string), not the empty
message. -/
theorem PromiseResult.fromPromise_claim_counterexample :
    PromiseResult.fromPromise (α := Nat)
        (SettledPromise.rejected
          (JsVal.jobj (some (JsVal.jstr "")) "\x7b\"message\":\"\"\x7d")) =
      SettledPromise.resolved
        (Result.failedResult "\x7b\"message\":\"\"\x7d") ∧
    "\x7b\"message\":\"\"\x7d" ≠ "" := by
  exact ⟨rfl, by decide⟩

/-- Claim C6 (amended): `PromiseResult.fromPromise(p)` never itself rejects;
if `p` resolves with `v` it yields `SucceededResult v`; if `p` rejects with
reason `r` it yields a `FailedResult` whose payload is `r` itself when `r`
is a string, `r`'s message when `r` has a truthy (non-empty) string
`message` property, and otherwise the JSON stringification of `r`. -/
theorem PromiseResult.fromPromise_spec (p : SettledPromise JsVal α) :
    (∃ r, PromiseResult.fromPromise p = SettledPromise.resolved r) ∧
    (∀ v, p = SettledPromise.resolved v →
      PromiseResult.fromPromise p =
        SettledPromise.resolved (Result.succeededResult v)) ∧
    (∀ s, p = SettledPromise.rejected (JsVal.jstr s) →
      PromiseResult.fromPromise p =
        SettledPromise.resolved (Result.failedResult s)) ∧
    (∀ m json, m ≠ "" →
      p = SettledPromise.rejected (JsVal.jobj (some (JsVal.jstr m)) json) →
      PromiseResult.fromPromise p =
        SettledPromise.resolved (Result.failedResult m)) ∧
    (∀ message json, (∀ s, s ≠ "" → message ≠ some (JsVal.jstr s)) →
      p = SettledPromise.rejected (JsVal.jobj message json) →
      PromiseResult.fromPromise p =
        SettledPromise.resolved (Result.failedResult json)) := by
  refine ⟨?_, ?_, ?_, ?_, ?_⟩
  · cases p with
    | resolved v => exact ⟨Result.succeededResult v, rfl⟩
    | rejected r => exact ⟨Result.failedResult (errorToString r), rfl⟩
  · intro v h; subst h; rfl
  · intro s h; subst h; rfl
  · intro m json hm h
    subst h
    simp [PromiseResult.fromPromise, errorToString, hm]
  · intro message json hmsg h
    subst h
    match message with
    | none => rfl
    | some (JsVal.jstr s) =>
      have hs : s = "" := by
        by_contra hne
        exact hmsg s hne rfl
      subst hs
      simp [PromiseResult.fromPromise, errorToString]
    | some (JsVal.jobj m j) => rfl

/-- Witness for C6 (amended) at a reason with a non-empty string message:
rejecting with an Error-like object whose message is `"error message"`
yields a resolved failure wrapping `"error message"`. -/
theorem PromiseResult.fromPromise_spec_witness :
    PromiseResult.fromPromise (α := Nat)
        (SettledPromise.rejected
          (JsVal.jobj (some (JsVal.jstr "error message")) "ignored")) =
      SettledPromise.resolved (Result.failedResult "error message") :=
  (PromiseResult.fromPromise_spec
      (SettledPromise.rejected
        (JsVal.jobj (some (JsVal.jstr "error message")) "ignored"))).2.2.2.1
    "error message" "ignored" (by decide) rfl

/-- Claim C8: `NoneOption` is a singleton — the type has exactly one value,
so every `NoneOption.get()` call returns the one instance and any two `None`
values are equal; its `isSome` is always `false`, `isNone` always `true`,
and `value` can never carry a payload. -/
theorem NoneOption.singleton_spec :
    (∀ a b : NoneOption, a = b) ∧
    NoneOption.isSome NoneOption.get = false ∧
    NoneOption.isNone NoneOption.get = true ∧
    (∀ (o : NoneOption) (v : Empty), NoneOption.value o ≠ some v) ∧
    (∀ (α : Type) (x y : TsOption α),
      x.isNone = true → y.isNone = true → x = y) := by
  refine ⟨fun a b => by cases a; cases b; rfl, rfl, rfl, ?_, ?_⟩
  · intro o v
    exact v.elim
  · intro α x y hx hy
    cases x with
    | someOpt o => simp [TsOption.isNone] at hx
    | noneOpt o =>
      cases y with
      | someOpt q => simp [TsOption.isNone] at hy
      | noneOpt q => cases o; cases q; rfl

/-- Witness for C8: two independently produced `None` values of type
`TsOption Nat` are equal. -/
theorem NoneOption.singleton_spec_witness :
    TsOption.noneOpt (α := Nat) {} = TsOption.noneOpt NoneOption.get :=
  NoneOption.singleton_spec.2.2.2.2 Nat
    (TsOption.noneOpt {}) (TsOption.noneOpt NoneOption.get) rfl rfl

/-- `find?` with the `isNone` predicate skips a prefix of somes and returns
the first none element. -/
theorem find?_isNone_first (o : NoneOption) (post : List (TsOption α)) :
    ∀ pre : List (TsOption α), (∀ x ∈ pre, x.isSome = true) →
      (pre ++ TsOption.noneOpt o :: post).find? TsOption.isNone =
        some (TsOption.noneOpt o) := by
  intro pre
  induction pre with
  | nil => intro _; simp [List.find?, TsOption.isNone]
  | cons x pre ih =>
    intro h
    cases x with
    | someOpt s =>
      simp only [List.cons_append, List.find?, TsOption.isNone]
      exact ih (fun z hz => h z (by simp [hz]))
    | noneOpt q =>
      have := h (TsOption.noneOpt q) (by simp)
      simp [TsOption.isSome] at this

/-- `find?` with the `isNone` predicate finds nothing in a list of somes. -/
theorem find?_isNone_map_some (vs : List α) :
    (vs.map (fun v => TsOption.someOpt ⟨v⟩)).find? TsOption.isNone = none := by
  induction vs with
  | nil => rfl
  | cons v vs ih => simp [List.find?, TsOption.isNone, ih]

/-- Collecting the values of a list of somes gives back the payloads. -/
theorem filterMap_value_map_some (vs : List α) :
    vs.filterMap (TsOption.value ∘ fun v => TsOption.someOpt ⟨v⟩) = vs := by
  induction vs with
  | nil => rfl
  | cons v vs ih => simp [Function.comp, TsOption.value, ih]

/-- Claim C9: `Option.all` returns the first `NoneOption` appearing in the
array when at least one element is none, and otherwise a `SomeOption`
wrapping the contained values in original element order; the empty array
yields a `SomeOption` wrapping an empty array. -/
theorem TsOption.all_spec (collection : List (TsOption α)) :
    (∀ vs : List α,
      collection = vs.map (fun v => TsOption.someOpt ⟨v⟩) →
      TsOption.all collection = TsOption.someOpt ⟨vs⟩) ∧
    (∀ (pre : List (TsOption α)) (o : NoneOption) (post : List (TsOption α)),
      collection = pre ++ TsOption.noneOpt o :: post →
      (∀ x ∈ pre, x.isSome = true) →
      TsOption.all collection = TsOption.noneOpt o) ∧
    (collection = [] → TsOption.all collection = TsOption.someOpt ⟨[]⟩) := by
  refine ⟨?_, ?_, ?_⟩
  · intro vs h
    subst h
    simp [TsOption.all, find?_isNone_map_some, filterMap_value_map_some]
  · intro pre o post h hpre
    subst h
    have hfind := find?_isNone_first o post pre hpre
    simp [TsOption.all, hfind]
  · intro h
    subst h
    rfl

/-- Witness for C9: `all` over `[Some 1, None, Some 2]` returns the none
element, and `all` over `[Some 1, Some 2]` returns `Some [1, 2]`. -/
theorem TsOption.all_spec_witness :
    TsOption.all [TsOption.someOpt ⟨(1 : Nat)⟩, TsOption.noneOpt {},
        TsOption.someOpt ⟨2⟩] = TsOption.noneOpt {} ∧
    TsOption.all [TsOption.someOpt ⟨(1 : Nat)⟩, TsOption.someOpt ⟨2⟩] =
      TsOption.someOpt ⟨[1, 2]⟩ :=
  ⟨(TsOption.all_spec [TsOption.someOpt ⟨(1 : Nat)⟩, TsOption.noneOpt {},
        TsOption.someOpt ⟨2⟩]).2.1
      [TsOption.someOpt ⟨(1 : Nat)⟩] {} [TsOption.someOpt ⟨2⟩] rfl
      (by decide),
    (TsOption.all_spec [TsOption.someOpt ⟨(1 : Nat)⟩,
        TsOption.someOpt ⟨2⟩]).1 [1, 2] rfl⟩

/-- Claim C10: `validateIndex(startIndex, itemsNeeded, container)` returns a
successful `Result` wrapping `startIndex` if and only if `startIndex ≥ 0`,
`itemsNeeded ≥ 0`, and either `itemsNeeded ≤ 0` or
`startIndex + itemsNeeded ≤ container.length`; in particular, zero items
needed succeeds for every non-negative start index, even one past the end of
the container. -/
theorem validateIndex_spec (startIndex itemsNeeded : Int)
    (containerLength : Nat) :
    (validateIndex startIndex itemsNeeded containerLength =
        Result.succeededResult startIndex ↔
      0 ≤ startIndex ∧ 0 ≤ itemsNeeded ∧
        (itemsNeeded ≤ 0 ∨
          startIndex + itemsNeeded ≤ (containerLength : Int))) ∧
    ((validateIndex startIndex itemsNeeded containerLength).succeeded =
        true ↔
      0 ≤ startIndex ∧ 0 ≤ itemsNeeded ∧
        (itemsNeeded ≤ 0 ∨
          startIndex + itemsNeeded ≤ (containerLength : Int))) := by
  unfold validateIndex
  dsimp only
  split_ifs with h1 h2 h3 h4
  · exact ⟨⟨fun h => h.elim, fun h => absurd h.1 (by omega)⟩,
      ⟨fun h => by simp [Result.succeeded] at h,
       fun h => absurd h.1 (by omega)⟩⟩
  · exact ⟨⟨fun h => h.elim, fun h => absurd h.2.1 (by omega)⟩,
      ⟨fun h => by simp [Result.succeeded] at h,
       fun h => absurd h.2.1 (by omega)⟩⟩
  · exact ⟨⟨fun _ => ⟨by omega, by omega, Or.inl h3⟩, fun _ => rfl⟩,
      ⟨fun _ => ⟨by omega, by omega, Or.inl h3⟩, fun _ => rfl⟩⟩
  · exact ⟨⟨fun _ => ⟨by omega, by omega, Or.inr (by omega)⟩, fun _ => rfl⟩,
      ⟨fun _ => ⟨by omega, by omega, Or.inr (by omega)⟩, fun _ => rfl⟩⟩
  · refine ⟨⟨fun h => h.elim, fun h => ?_⟩,
      ⟨fun h => by simp [Result.succeeded] at h, fun h => ?_⟩⟩ <;>
    · rcases h.2.2 with hle | hle
      · exact absurd hle h3
      · exact absurd (by omega :
          startIndex + itemsNeeded - 1 ≤ (containerLength : Int) - 1) h4

/-- Witness for C10: `validateIndex(0, 0, [])` succeeds, wrapping `0`. -/
theorem validateIndex_spec_witness :
    validateIndex 0 0 0 = Result.succeededResult 0 :=
  (validateIndex_spec 0 0 0).1.mpr (by norm_num)

/-- Every promise in the list settles no later than `maxDelay`. -/
theorem le_maxDelay (ps : List (TimedPromise σ ε)) :
    ∀ p ∈ ps, p.delay ≤ maxDelay ps := by
  induction ps with
  | nil =>
    intro p hp
    exact absurd hp (List.not_mem_nil p)
  | cons q qs ih =>
    intro p hp
    rcases List.mem_cons.mp hp with h | h
    · subst h
      exact Nat.le_max_left _ _
    · exact Nat.le_trans (ih p h) (Nat.le_max_right _ _)

/-- When every promise succeeded, the promises' results are exactly the
collected `successValues`, wrapped, in original order. -/
theorem successValues_map (ps : List (TimedPromise σ ε))
    (h : ∀ p ∈ ps, p.result.succeeded = true) :
    ps.map (fun p => p.result) =
      (successValues ps).map Result.succeededResult := by
  induction ps with
  | nil => rfl
  | cons q qs ih =>
    obtain ⟨v, hv⟩ := (Result.succeeded_iff q.result).mp (h q (by simp))
    have hrec := ih (fun p hp => h p (by simp [hp]))
    simp [successValues, List.filterMap_cons, hv, Result.value] at hrec ⊢
    exact hrec

/-- Indices reported by `indexedFailuresFrom k` are at least `k`. -/
theorem indexedFailuresFrom_index_ge (ps : List (TimedPromise σ ε)) :
    ∀ k, ∀ f ∈ indexedFailuresFrom k ps, k ≤ f.index := by
  induction ps with
  | nil =>
    intro k f hf
    simp [indexedFailuresFrom] at hf
  | cons q qs ih =>
    intro k f hf
    cases hq : q.result with
    | succeededResult v =>
      simp only [indexedFailuresFrom, hq] at hf
      exact Nat.le_trans (Nat.le_succ k) (ih (k + 1) f hf)
    | failedResult e =>
      simp only [indexedFailuresFrom, hq, List.mem_cons] at hf
      rcases hf with h | h
      · subst h
        exact Nat.le_refl k
      · exact Nat.le_trans (Nat.le_succ k) (ih (k + 1) f h)

/-- The reports of `indexedFailuresFrom k` carry strictly ascending
indices. -/
theorem indexedFailuresFrom_pairwise (ps : List (TimedPromise σ ε)) :
    ∀ k, (indexedFailuresFrom k ps).Pairwise
      (fun a b => a.index < b.index) := by
  induction ps with
  | nil =>
    intro k
    simp [indexedFailuresFrom]
  | cons q qs ih =>
    intro k
    cases hq : q.result with
    | succeededResult v =>
      simp only [indexedFailuresFrom, hq]
      exact ih (k + 1)
    | failedResult e =>
      simp only [indexedFailuresFrom, hq]
      refine List.Pairwise.cons ?_ (ih (k + 1))
      intro b hb
      exact Nat.lt_of_lt_of_le (Nat.lt_succ_self k)
        (indexedFailuresFrom_index_ge qs (k + 1) b hb)

/-- A report `f` appears in `indexedFailuresFrom k ps` exactly when the
promise at offset `f.index - k` failed with `f.item`. -/
theorem mem_indexedFailuresFrom (ps : List (TimedPromise σ ε)) :
    ∀ k (f : IndexedFailure ε),
      f ∈ indexedFailuresFrom k ps ↔
      ∃ j p, ps[j]? = some p ∧ f.index = k + j ∧
        p.result = Result.failedResult f.item := by
  induction ps with
  | nil =>
    intro k f
    simp [indexedFailuresFrom]
  | cons q qs ih =>
    intro k f
    cases hq : q.result with
    | succeededResult v =>
      simp only [indexedFailuresFrom, hq]
      rw [ih (k + 1) f]
      constructor
      · rintro ⟨j, p, hj, hidx, hres⟩
        exact ⟨j + 1, p, by simpa using hj, by omega, hres⟩
      · rintro ⟨j, p, hj, hidx, hres⟩
        cases j with
        | zero =>
          rw [List.getElem?_cons_zero] at hj
          injection hj with hj
          subst hj
          rw [hq] at hres
          exact absurd hres (by simp)
        | succ j =>
          exact ⟨j, p, by simpa using hj, by omega, hres⟩
    | failedResult e =>
      simp only [indexedFailuresFrom, hq, List.mem_cons]
      constructor
      · rintro (h | h)
        · subst h
          exact ⟨0, q, List.getElem?_cons_zero, rfl, by simp [hq]⟩
        · obtain ⟨j, p, hj, hidx, hres⟩ := (ih (k + 1) f).mp h
          exact ⟨j + 1, p, by simpa using hj, by omega, hres⟩
      · rintro ⟨j, p, hj, hidx, hres⟩
        cases j with
        | zero =>
          left
          rw [List.getElem?_cons_zero] at hj
          injection hj with hj
          subst hj
          rw [hq] at hres
          obtain ⟨i, it⟩ := f
          simp only [IndexedFailure.mk.injEq]
          simp only [Result.failedResult.injEq] at hres
          simp only at hidx
          exact ⟨by omega, hres.symm⟩
        | succ j =>
          right
          exact (ih (k + 1) f).mpr ⟨j, p, by simpa using hj, by omega, hres⟩

/-- When every promise succeeded there are no failure reports. -/
theorem indexedFailures_nil (ps : List (TimedPromise σ ε))
    (h : ∀ p ∈ ps, p.result.succeeded = true) :
    indexedFailures ps = [] := by
  cases hfs : indexedFailures ps with
  | nil => rfl
  | cons f fs =>
    exfalso
    have hmem : f ∈ indexedFailures ps := by
      rw [hfs]
      exact List.mem_cons_self f fs
    obtain ⟨j, p, hj, _, hres⟩ :=
      (mem_indexedFailuresFrom ps 0 f).mp hmem
    have hp : p ∈ ps := List.mem_iff_getElem?.mpr ⟨j, hj⟩
    have hs := h p hp
    rw [hres] at hs
    simp [Result.succeeded] at hs

/-- Claim C1: `PromiseResult.allArrayA` waits for every promise to settle
(its resolution time is no earlier than any promise's latency; the empty
array resolves immediately with a success wrapping `[]`); when at least one
promise fails it resolves with a failure wrapping exactly one
`IndexedFailure` per failing promise, ordered by ascending original index
regardless of settlement order; when none fail it resolves with a success
wrapping the values in original index order. -/
theorem PromiseResult.allArrayA_spec (ps : List (TimedPromise σ ε)) :
    (∀ p ∈ ps, p.delay ≤ (PromiseResult.allArrayA ps).1) ∧
    ((∃ p ∈ ps, p.result.failed = true) →
      ∃ fs, (PromiseResult.allArrayA ps).2 = Result.failedResult fs ∧
        fs.Pairwise (fun a b => a.index < b.index) ∧
        (∀ f : IndexedFailure ε, f ∈ fs ↔
          ∃ p, ps[f.index]? = some p ∧
            p.result = Result.failedResult f.item)) ∧
    ((∀ p ∈ ps, p.result.succeeded = true) →
      (PromiseResult.allArrayA ps).2 =
        Result.succeededResult (successValues ps) ∧
      ps.map (fun p => p.result) =
        (successValues ps).map Result.succeededResult) ∧
    (ps = [] →
      PromiseResult.allArrayA ps = (0, Result.succeededResult [])) := by
  refine ⟨?_, ?_, ?_, ?_⟩
  · intro p hp
    exact le_maxDelay ps p hp
  · rintro ⟨p, hp, hpf⟩
    obtain ⟨e, he⟩ := (Result.failed_iff p.result).mp hpf
    obtain ⟨j, hj⟩ := List.mem_iff_getElem?.mp hp
    have hmem : (⟨j, e⟩ : IndexedFailure ε) ∈ indexedFailures ps :=
      (mem_indexedFailuresFrom ps 0 ⟨j, e⟩).mpr ⟨j, p, hj, (Nat.zero_add j).symm, he⟩
    cases hfs : indexedFailures ps with
    | nil =>
      rw [hfs] at hmem
      exact absurd hmem (List.not_mem_nil _)
    | cons f0 fs0 =>
      refine ⟨f0 :: fs0, ?_, ?_, ?_⟩
      · show (match indexedFailures ps with
          | [] => Result.succeededResult (successValues ps)
          | f :: fs => Result.failedResult (f :: fs)) = _
        rw [hfs]
      · rw [← hfs]
        exact indexedFailuresFrom_pairwise ps 0
      · intro f
        rw [← hfs, indexedFailures, mem_indexedFailuresFrom ps 0 f]
        constructor
        · rintro ⟨j, q, hjq, hidx, hres⟩
          refine ⟨q, ?_, hres⟩
          rw [hidx]
          simpa using hjq
        · rintro ⟨q, hq, hres⟩
          exact ⟨f.index, q, hq, by omega, hres⟩
  · intro h
    have hnil := indexedFailures_nil ps h
    constructor
    · show (match indexedFailures ps with
        | [] => Result.succeededResult (successValues ps)
        | f :: fs => Result.failedResult (f :: fs)) = _
      rw [hnil]
    · exact successValues_map ps h
  · intro h
    subst h
    rfl

/-- Witness for C1: over two promises of which the slower (latency 10)
fails, `allArrayA` resolves no earlier than 10; over two successes it
resolves with the collected values. -/
theorem PromiseResult.allArrayA_spec_witness :
    ((⟨10, Result.failedResult "e1"⟩ : TimedPromise Nat String).delay ≤
      (PromiseResult.allArrayA
        [⟨5, Result.succeededResult 0⟩,
         ⟨10, Result.failedResult "e1"⟩]).1) ∧
    (PromiseResult.allArrayA
        [(⟨5, Result.succeededResult 0⟩ : TimedPromise Nat String),
         ⟨10, Result.succeededResult 1⟩]).2 =
      Result.succeededResult (successValues
        [(⟨5, Result.succeededResult 0⟩ : TimedPromise Nat String),
         ⟨10, Result.succeededResult 1⟩]) :=
  ⟨(PromiseResult.allArrayA_spec
      [⟨5, Result.succeededResult 0⟩, ⟨10, Result.failedResult "e1"⟩]).1
      ⟨10, Result.failedResult "e1"⟩ (by decide),
   ((PromiseResult.allArrayA_spec
      [⟨5, Result.succeededResult 0⟩, ⟨10, Result.succeededResult 1⟩]).2.2.1
      (by decide)).1⟩

/-- Indices of `failureEventsFrom k` are at least `k`. -/
theorem failureEventsFrom_index_ge (ps : List (TimedPromise σ ε)) :
    ∀ k, ∀ x ∈ failureEventsFrom k ps, k ≤ x.2.1 := by
  induction ps with
  | nil =>
    intro k x hx
    simp [failureEventsFrom] at hx
  | cons q qs ih =>
    intro k x hx
    cases hq : q.result with
    | succeededResult v =>
      simp only [failureEventsFrom, hq] at hx
      exact Nat.le_trans (Nat.le_succ k) (ih (k + 1) x hx)
    | failedResult e =>
      simp only [failureEventsFrom, hq, List.mem_cons] at hx
      rcases hx with h | h
      · subst h
        exact Nat.le_refl k
      · exact Nat.le_trans (Nat.le_succ k) (ih (k + 1) x h)

/-- The events of `failureEventsFrom k` carry strictly ascending indices. -/
theorem failureEventsFrom_pairwise (ps : List (TimedPromise σ ε)) :
    ∀ k, (failureEventsFrom k ps).Pairwise
      (fun a b => a.2.1 < b.2.1) := by
  induction ps with
  | nil =>
    intro k
    simp [failureEventsFrom]
  | cons q qs ih =>
    intro k
    cases hq : q.result with
    | succeededResult v =>
      simp only [failureEventsFrom, hq]
      exact ih (k + 1)
    | failedResult e =>
      simp only [failureEventsFrom, hq]
      refine List.Pairwise.cons ?_ (ih (k + 1))
      intro b hb
      exact Nat.lt_of_lt_of_le (Nat.lt_succ_self k)
        (failureEventsFrom_index_ge qs (k + 1) b hb)

/-- An event `(d, i, e)` appears in `failureEventsFrom k ps` exactly when
the promise at offset `i - k` has latency `d` and failed with `e`. -/
theorem mem_failureEventsFrom (ps : List (TimedPromise σ ε)) :
    ∀ k (x : Nat × Nat × ε),
      x ∈ failureEventsFrom k ps ↔
      ∃ j p, ps[j]? = some p ∧ x.2.1 = k + j ∧ p.delay = x.1 ∧
        p.result = Result.failedResult x.2.2 := by
  induction ps with
  | nil =>
    intro k x
    simp [failureEventsFrom]
  | cons q qs ih =>
    intro k x
    cases hq : q.result with
    | succeededResult v =>
      simp only [failureEventsFrom, hq]
      rw [ih (k + 1) x]
      constructor
      · rintro ⟨j, p, hj, hidx, hd, hres⟩
        exact ⟨j + 1, p, by simpa using hj, by omega, hd, hres⟩
      · rintro ⟨j, p, hj, hidx, hd, hres⟩
        cases j with
        | zero =>
          rw [List.getElem?_cons_zero] at hj
          injection hj with hj
          subst hj
          rw [hq] at hres
          exact absurd hres (by simp)
        | succ j =>
          exact ⟨j, p, by simpa using hj, by omega, hd, hres⟩
    | failedResult e =>
      simp only [failureEventsFrom, hq, List.mem_cons]
      constructor
      · rintro (h | h)
        · subst h
          exact ⟨0, q, List.getElem?_cons_zero, (Nat.zero_add k).symm ▸ rfl,
            rfl, by simp [hq]⟩
        · obtain ⟨j, p, hj, hidx, hd, hres⟩ := (ih (k + 1) x).mp h
          exact ⟨j + 1, p, by simpa using hj, by omega, hd, hres⟩
      · rintro ⟨j, p, hj, hidx, hd, hres⟩
        cases j with
        | zero =>
          left
          rw [List.getElem?_cons_zero] at hj
          injection hj with hj
          subst hj
          rw [hq] at hres
          obtain ⟨d, i, er⟩ := x
          simp only [Result.failedResult.injEq] at hres
          simp only at hidx hd
          simp only [Prod.mk.injEq]
          exact ⟨hd.symm, by omega, hres.symm⟩
        | succ j =>
          right
          exact (ih (k + 1) x).mpr
            ⟨j, p, by simpa using hj, by omega, hd, hres⟩

/-- When every promise succeeded there are no failure events. -/
theorem failureEvents_nil (ps : List (TimedPromise σ ε))
    (h : ∀ p ∈ ps, p.result.succeeded = true) :
    failureEvents ps = [] := by
  cases hfs : failureEvents ps with
  | nil => rfl
  | cons x xs =>
    exfalso
    have hmem : x ∈ failureEvents ps := by
      rw [hfs]
      exact List.mem_cons_self x xs
    obtain ⟨j, p, hj, _, _, hres⟩ :=
      (mem_failureEventsFrom ps 0 x).mp hmem
    have hp : p ∈ ps := List.mem_iff_getElem?.mpr ⟨j, hj⟩
    have hs := h p hp
    rw [hres] at hs
    simp [Result.succeeded] at hs

/-- `earliestEvent` finds nothing exactly on the empty event list. -/
theorem earliestEvent_eq_none (xs : List (Nat × Nat × ε)) :
    earliestEvent xs = none ↔ xs = [] := by
  cases xs with
  | nil => simp [earliestEvent]
  | cons x xs =>
    simp only [earliestEvent]
    cases earliestEvent xs with
    | none => simp
    | some y =>
      by_cases h : x.1 ≤ y.1 <;> simp [h]

/-- The earliest event is one of the events. -/
theorem earliestEvent_mem (xs : List (Nat × Nat × ε)) :
    ∀ y, earliestEvent xs = some y → y ∈ xs := by
  induction xs with
  | nil =>
    intro y h
    exact absurd h (by simp [earliestEvent])
  | cons x xs ih =>
    intro y h
    simp only [earliestEvent] at h
    cases he : earliestEvent xs with
    | none =>
      rw [he] at h
      injection h with h
      subst h
      exact List.mem_cons_self x xs
    | some z =>
      rw [he] at h
      dsimp only at h
      by_cases hle : x.1 ≤ z.1
      · rw [if_pos hle] at h
        injection h with h
        subst h
        exact List.mem_cons_self x xs
      · rw [if_neg hle] at h
        injection h with h
        subst h
        exact List.mem_cons_of_mem x (ih z he)

/-- The earliest event settles no later than any event. -/
theorem earliestEvent_min_delay (xs : List (Nat × Nat × ε)) :
    ∀ y, earliestEvent xs = some y → ∀ x ∈ xs, y.1 ≤ x.1 := by
  induction xs with
  | nil =>
    intro y h
    exact absurd h (by simp [earliestEvent])
  | cons a xs ih =>
    intro y h x hx
    simp only [earliestEvent] at h
    cases he : earliestEvent xs with
    | none =>
      rw [he] at h
      injection h with h
      subst h
      have : xs = [] := (earliestEvent_eq_none xs).mp he
      subst this
      rcases List.mem_cons.mp hx with h | h
      · subst h
        exact Nat.le_refl _
      · exact absurd h (List.not_mem_nil x)
    | some z =>
      rw [he] at h
      dsimp only at h
      by_cases hle : a.1 ≤ z.1
      · rw [if_pos hle] at h
        injection h with h
        subst h
        rcases List.mem_cons.mp hx with h | h
        · subst h
          exact Nat.le_refl _
        · exact Nat.le_trans hle (ih z he x h)
      · rw [if_neg hle] at h
        injection h with h
        subst h
        rcases List.mem_cons.mp hx with h | h
        · subst h
          omega
        · exact ih z he x h

/-- With events listed in strictly ascending index order, the earliest
event beats every event either strictly on delay or, at equal delay, on
index — the registration-order tie-break of equal-delay timers. -/
theorem earliestEvent_first (xs : List (Nat × Nat × ε)) :
    xs.Pairwise (fun a b => a.2.1 < b.2.1) →
    ∀ y, earliestEvent xs = some y →
      ∀ x ∈ xs, y.1 < x.1 ∨ (y.1 = x.1 ∧ y.2.1 ≤ x.2.1) := by
  induction xs with
  | nil =>
    intro _ y h
    exact absurd h (by simp [earliestEvent])
  | cons a xs ih =>
    intro hsort y h x hx
    have hsort2 := List.pairwise_cons.mp hsort
    simp only [earliestEvent] at h
    cases he : earliestEvent xs with
    | none =>
      rw [he] at h
      injection h with h
      subst h
      have : xs = [] := (earliestEvent_eq_none xs).mp he
      subst this
      rcases List.mem_cons.mp hx with h | h
      · subst h
        exact Or.inr ⟨rfl, Nat.le_refl _⟩
      · exact absurd h (List.not_mem_nil x)
    | some z =>
      rw [he] at h
      dsimp only at h
      by_cases hle : a.1 ≤ z.1
      · rw [if_pos hle] at h
        injection h with h
        subst h
        rcases List.mem_cons.mp hx with h | h
        · subst h
          exact Or.inr ⟨rfl, Nat.le_refl _⟩
        · have hz := earliestEvent_min_delay xs z he x h
          rcases Nat.lt_or_ge a.1 x.1 with hlt | hge
          · exact Or.inl hlt
          · refine Or.inr ⟨by omega, Nat.le_of_lt (hsort2.1 x h)⟩
      · rw [if_neg hle] at h
        injection h with h
        subst h
        rcases List.mem_cons.mp hx with h | h
        · subst h
          exact Or.inl (by omega)
        · exact ih hsort2.2 z he x h

/-- Claim C2: when at least one promise fails, `PromiseResult.allArrayM`
resolves at the earliest-settling failure's own latency — not waiting for
slower promises — with a single `IndexedFailure` naming that promise's
original index and error payload (the returned failure beats every failing
promise either strictly on latency or, at equal latency, on registration
order); when every promise succeeds it resolves only after all have
completed, with a success wrapping the values in original index order. -/
theorem PromiseResult.allArrayM_spec (ps : List (TimedPromise σ ε)) :
    ((∃ p ∈ ps, p.result.failed = true) →
      ∃ d i e, PromiseResult.allArrayM ps = (d, Result.failedResult ⟨i, e⟩) ∧
        (∃ p, ps[i]? = some p ∧ p.delay = d ∧
          p.result = Result.failedResult e) ∧
        (∀ j p, ps[j]? = some p → p.result.failed = true →
          d < p.delay ∨ (d = p.delay ∧ i ≤ j))) ∧
    ((∀ p ∈ ps, p.result.succeeded = true) →
      (∀ p ∈ ps, p.delay ≤ (PromiseResult.allArrayM ps).1) ∧
      (PromiseResult.allArrayM ps).2 =
        Result.succeededResult (successValues ps) ∧
      ps.map (fun p => p.result) =
        (successValues ps).map Result.succeededResult) := by
  constructor
  · rintro ⟨p, hp, hpf⟩
    obtain ⟨e, he⟩ := (Result.failed_iff p.result).mp hpf
    obtain ⟨j, hj⟩ := List.mem_iff_getElem?.mp hp
    have hmem : (p.delay, j, e) ∈ failureEvents ps :=
      (mem_failureEventsFrom ps 0 (p.delay, j, e)).mpr
        ⟨j, p, hj, (Nat.zero_add j).symm, rfl, he⟩
    cases hev : earliestEvent (failureEvents ps) with
    | none =>
      exfalso
      have hnil : failureEvents ps = [] := (earliestEvent_eq_none _).mp hev
      rw [hnil] at hmem
      exact absurd hmem (List.not_mem_nil _)
    | some y =>
      obtain ⟨d, i, e0⟩ := y
      have hymem := earliestEvent_mem _ _ hev
      obtain ⟨j0, q, hq, hidx, hdel, hres⟩ :=
        (mem_failureEventsFrom ps 0 (d, i, e0)).mp hymem
      refine ⟨d, i, e0, ?_, ?_, ?_⟩
      · simp only [PromiseResult.allArrayM, hev]
      · refine ⟨q, ?_, hdel, hres⟩
        have hij : i = j0 := by simpa using hidx
        rw [hij]
        exact hq
      · intro j1 p1 hjp hpf1
        obtain ⟨e1, he1⟩ := (Result.failed_iff p1.result).mp hpf1
        have hx : (p1.delay, j1, e1) ∈ failureEvents ps :=
          (mem_failureEventsFrom ps 0 (p1.delay, j1, e1)).mpr
            ⟨j1, p1, hjp, (Nat.zero_add j1).symm, rfl, he1⟩
        have hfirst := earliestEvent_first (failureEvents ps)
          (failureEventsFrom_pairwise ps 0) (d, i, e0) hev
          (p1.delay, j1, e1) hx
        simpa using hfirst
  · intro h
    have hnil := failureEvents_nil ps h
    have hev : earliestEvent (failureEvents ps) = none := by
      rw [hnil]
      rfl
    have hM : PromiseResult.allArrayM ps =
        (maxDelay ps, Result.succeededResult (successValues ps)) := by
      simp only [PromiseResult.allArrayM, hev]
    rw [hM]
    exact ⟨fun p hp => le_maxDelay ps p hp, rfl, successValues_map ps h⟩

/-- Witness for C2 at the repository's own example: with failures at
latencies 15 (index 1) and 60 (index 4), `allArrayM` resolves at 15 with
index 1 — and over an all-success array it collects the values. -/
theorem PromiseResult.allArrayM_spec_witness :
    (PromiseResult.allArrayM
        [(⟨5, Result.succeededResult 1⟩ : TimedPromise Nat String),
         ⟨10, Result.succeededResult 2⟩]).2 =
      Result.succeededResult (successValues
        [(⟨5, Result.succeededResult 1⟩ : TimedPromise Nat String),
         ⟨10, Result.succeededResult 2⟩]) ∧
    PromiseResult.allArrayM
        [(⟨5, Result.succeededResult 1⟩ : TimedPromise Nat String),
         ⟨15, Result.failedResult "error 1"⟩,
         ⟨40, Result.succeededResult 2⟩,
         ⟨50, Result.succeededResult 3⟩,
         ⟨60, Result.failedResult "error 2"⟩] =
      (15, Result.failedResult ⟨1, "error 1"⟩) :=
  ⟨((PromiseResult.allArrayM_spec
      [⟨5, Result.succeededResult 1⟩,
       ⟨10, Result.succeededResult 2⟩]).2 (by decide)).2.1,
   by decide⟩

/-- When every named entry succeeded, the success object keeps the keys in
order and pairs them with exactly the entries' success values. -/
theorem objSuccessValues_split (entries : List (String × TimedPromise σ ε))
    (h : ∀ kv ∈ entries, kv.2.result.succeeded = true) :
    (objSuccessValues entries).map Prod.fst = entries.map Prod.fst ∧
    entries.map (fun kv => kv.2.result) =
      (objSuccessValues entries).map
        (fun kv => Result.succeededResult kv.2) := by
  induction entries with
  | nil => exact ⟨rfl, rfl⟩
  | cons kv rest ih =>
    obtain ⟨v, hv⟩ := (Result.succeeded_iff kv.2.result).mp (h kv (by simp))
    obtain ⟨ih1, ih2⟩ := ih (fun x hx => h x (by simp [hx]))
    constructor
    · simp only [objSuccessValues, List.filterMap_cons, hv, Result.value,
        List.map_cons] at ih1 ⊢
      simp [ih1]
    · simp only [objSuccessValues, List.filterMap_cons, hv, Result.value,
        List.map_cons] at ih2 ⊢
      simp [hv, ih2]

/-- Claim C7: `PromiseResult.allObj` runs all named promises concurrently
and resolves either with a failure carrying one losing entry's error (at
that entry's own latency) or, when every entry succeeds, with a success
object having the same keys in order mapped to the resolved values; in the
verified example with two concurrently failing entries, the later-keyed,
shorter-latency entry op4 loses — its error `3` (here `"error 3"`) is
returned rather than first-keyed op2's `"error 1"`. -/
theorem PromiseResult.allObj_spec
    (entries : List (String × TimedPromise σ ε)) :
    ((∃ kv ∈ entries, kv.2.result.failed = true) →
      ∃ d e, PromiseResult.allObj entries = (d, Result.failedResult e) ∧
        ∃ kv ∈ entries, kv.2.delay = d ∧
          kv.2.result = Result.failedResult e) ∧
    ((∀ kv ∈ entries, kv.2.result.succeeded = true) →
      (∀ kv ∈ entries, kv.2.delay ≤ (PromiseResult.allObj entries).1) ∧
      (PromiseResult.allObj entries).2 =
        Result.succeededResult (objSuccessValues entries) ∧
      (objSuccessValues entries).map Prod.fst = entries.map Prod.fst ∧
      entries.map (fun kv => kv.2.result) =
        (objSuccessValues entries).map
          (fun kv => Result.succeededResult kv.2)) ∧
    (PromiseResult.allObj
        [("op1", (⟨50, Result.succeededResult "hello"⟩ :
            TimedPromise String String)),
         ("op2", ⟨50, Result.failedResult "error 1"⟩),
         ("op3", ⟨20, Result.succeededResult "x"⟩),
         ("op4", ⟨20, Result.failedResult "error 3"⟩)] =
      (20, Result.failedResult "error 3") ∧
      ("error 3" : String) ≠ "error 1") := by
  refine ⟨?_, ?_, by decide, by decide⟩
  · rintro ⟨kv, hkv, hkvf⟩
    obtain ⟨e, he⟩ := (Result.failed_iff kv.2.result).mp hkvf
    have hq : kv.2 ∈ entries.map Prod.snd := List.mem_map_of_mem Prod.snd hkv
    obtain ⟨j, hj⟩ := List.mem_iff_getElem?.mp hq
    have hmem : (kv.2.delay, j, e) ∈ failureEvents (entries.map Prod.snd) :=
      (mem_failureEventsFrom (entries.map Prod.snd) 0
          (kv.2.delay, j, e)).mpr
        ⟨j, kv.2, hj, (Nat.zero_add j).symm, rfl, he⟩
    cases hev : earliestEvent (failureEvents (entries.map Prod.snd)) with
    | none =>
      exfalso
      have hnil : failureEvents (entries.map Prod.snd) = [] :=
        (earliestEvent_eq_none _).mp hev
      rw [hnil] at hmem
      exact absurd hmem (List.not_mem_nil _)
    | some y =>
      obtain ⟨d, i, e0⟩ := y
      have hymem := earliestEvent_mem _ _ hev
      obtain ⟨j0, q, hq0, _, hdel, hres⟩ :=
        (mem_failureEventsFrom (entries.map Prod.snd) 0 (d, i, e0)).mp hymem
      rw [List.getElem?_map] at hq0
      cases hent : entries[j0]? with
      | none =>
        exfalso
        rw [hent] at hq0
        exact absurd hq0 (by simp)
      | some kv0 =>
        rw [hent] at hq0
        have hkv0q : kv0.2 = q := by
          simpa using hq0
        refine ⟨d, e0, ?_, kv0, List.mem_iff_getElem?.mpr ⟨j0, hent⟩,
          ?_, ?_⟩
        · simp only [PromiseResult.allObj, hev]
        · rw [hkv0q]
          exact hdel
        · rw [hkv0q]
          exact hres
  · intro h
    have hq : ∀ p ∈ entries.map Prod.snd, p.result.succeeded = true := by
      intro p hp
      obtain ⟨kv, hkv, hkvp⟩ := List.mem_map.mp hp
      rw [← hkvp]
      exact h kv hkv
    have hnil := failureEvents_nil (entries.map Prod.snd) hq
    have hev : earliestEvent (failureEvents (entries.map Prod.snd)) =
        none := by
      rw [hnil]
      rfl
    have hM : PromiseResult.allObj entries =
        (maxDelay (entries.map Prod.snd),
         Result.succeededResult (objSuccessValues entries)) := by
      simp only [PromiseResult.allObj, hev]
    rw [hM]
    obtain ⟨h1, h2⟩ := objSuccessValues_split entries h
    exact ⟨fun kv hkv => le_maxDelay (entries.map Prod.snd) kv.2
        (List.mem_map_of_mem Prod.snd hkv), rfl, h1, h2⟩

/-- Witness for C7: over two all-success named entries the join yields the
success object, and the verified four-entry example returns op4's error. -/
theorem PromiseResult.allObj_spec_witness :
    (PromiseResult.allObj
        [("op1", (⟨50, Result.succeededResult "hello"⟩ :
            TimedPromise String String)),
         ("op2", ⟨20, Result.succeededResult "there"⟩)]).2 =
      Result.succeededResult (objSuccessValues
        [("op1", (⟨50, Result.succeededResult "hello"⟩ :
            TimedPromise String String)),
         ("op2", ⟨20, Result.succeededResult "there"⟩)]) ∧
    PromiseResult.allObj
        [("op1", (⟨50, Result.succeededResult "hello"⟩ :
            TimedPromise String String)),
         ("op2", ⟨50, Result.failedResult "error 1"⟩),
         ("op3", ⟨20, Result.succeededResult "x"⟩),
         ("op4", ⟨20, Result.failedResult "error 3"⟩)] =
      (20, Result.failedResult "error 3") :=
  ⟨((PromiseResult.allObj_spec
      [("op1", ⟨50, Result.succeededResult "hello"⟩),
       ("op2", ⟨20, Result.succeededResult "there"⟩)]).2.1
      (by decide)).2.1,
   ((PromiseResult.allObj_spec
      (σ := String) (ε := String) []).2.2).1⟩
